import Mathlib

/-!
A verification development for the `git-rebase-all` program (version 0.0.6:
`main.go` together with its git helper file).

Modelling conventions: Go strings are modelled as lists of characters
(`Str`), so that every definition is executable by the kernel; Go's
`map[string]string` is modelled as an association list; every call to the
external `git` binary is modelled as a query to an oracle environment
(`Env`) that describes the outputs the binary would produce; and the
functions of the program record the git invocations they make in a trace of
events (`Ev`).  Commands whose outcome depends on the repository state carry
the relevant piece of that state as an extra oracle argument (for `rebase`
and `rebase --abort`, the branch that is checked out when they run).
-/

namespace GitRebaseAll

/-- Go strings, modelled as lists of characters. -/
abbrev Str := List Char

/-- A string literal, as a `Str`. -/
def lit (s : String) : Str := s.toList

/-- The whitespace characters (ASCII part of `unicode.IsSpace`), used by
`strings.TrimSpace` and by `fmt.Sscanf` verbs. -/
def isSpaceChar (c : Char) : Bool :=
  c = ' ' || c = '\t' || c = '\n' || c = '\r' || c = '\x0B' || c = '\x0C'

/-- ASCII decimal digits, as `fmt.Sscanf`'s `%d` verb accepts. -/
def isDigitChar (c : Char) : Bool := 48 ≤ c.toNat && c.toNat ≤ 57

/-- If `p` is a leading segment of `s`, the remainder of `s` after it. -/
def chopLit : Str → Str → Option Str
  | [], s => some s
  | _ :: _, [] => none
  | p :: ps, c :: cs => if p = c then chopLit ps cs else none

/-- `strings.HasPrefix`. -/
def beginsWith (s pat : Str) : Bool := (chopLit pat s).isSome

/-- `strings.Contains`. -/
def hasSubstr : Str → Str → Bool
  | [], pat => pat.isEmpty
  | c :: cs, pat => (chopLit pat (c :: cs)).isSome || hasSubstr cs pat

/-- `strings.TrimSpace`. -/
def trimStr (s : Str) : Str :=
  ((s.dropWhile isSpaceChar).reverse.dropWhile isSpaceChar).reverse

/-- `strings.Split` with a one-character separator. -/
def splitChar (sep : Char) : Str → List Str
  | [] => [[]]
  | c :: cs =>
    if c = sep then [] :: splitChar sep cs
    else
      match splitChar sep cs with
      | [] => [[c]]
      | seg :: rest => (c :: seg) :: rest

/-- `strings.Split` with the two-character separator `"\x00\x00"` used by
the worktree listing. -/
def splitNulNul : Str → List Str
  | [] => [[]]
  | '\x00' :: '\x00' :: cs => [] :: splitNulNul cs
  | c :: cs =>
    match splitNulNul cs with
    | [] => [[c]]
    | seg :: rest => (c :: seg) :: rest

/-- `bufio.Scanner` with `ScanLines`: the lines of a chunk of output (no
empty token is produced for a trailing newline or for empty output). -/
def scanLines (s : Str) : List Str :=
  let ls := splitChar '\n' s
  match ls.getLast? with
  | some [] => ls.dropLast
  | _ => ls

/-- `strings.Cut(s, sep)` for a one-character separator. -/
def cutChar (sep : Char) : Str → Option (Str × Str)
  | [] => none
  | c :: cs =>
    if c = sep then some ([], cs)
    else (cutChar sep cs).map (fun p => (c :: p.1, p.2))

/-- The numeric value of a run of decimal digits. -/
def digitsToNat (ds : Str) : Nat := ds.foldl (fun n c => 10 * n + (c.toNat - 48)) 0

/-- `fmt.Sscanf`'s `%d` verb: skip whitespace, then an optionally signed
decimal integer; fails if no digit follows.  Returns the value and the
remaining input. -/
def scanInt (s : Str) : Option (Int × Str) :=
  let s1 := s.dropWhile isSpaceChar
  match s1 with
  | '-' :: r =>
    let ds := r.takeWhile isDigitChar
    if ds.isEmpty then none else some (-(digitsToNat ds : Int), r.dropWhile isDigitChar)
  | '+' :: r =>
    let ds := r.takeWhile isDigitChar
    if ds.isEmpty then none else some ((digitsToNat ds : Int), r.dropWhile isDigitChar)
  | _ =>
    let ds := s1.takeWhile isDigitChar
    if ds.isEmpty then none else some ((digitsToNat ds : Int), s1.dropWhile isDigitChar)

/-- `fmt.Sscanf`'s `%s` verb: skip whitespace, then a maximal nonempty run
of non-whitespace characters. -/
def scanToken (s : Str) : Option (Str × Str) :=
  let s1 := s.dropWhile isSpaceChar
  let tok := s1.takeWhile (fun c => !(isSpaceChar c))
  if tok.isEmpty then none
  else some (tok, s1.dropWhile (fun c => !(isSpaceChar c)))

/-- Codepoint-wise lexicographic order on strings, as `slices.Sort` uses for
a `[]string`. -/
def strLe : Str → Str → Bool
  | [], _ => true
  | _ :: _, [] => false
  | a :: as, b :: bs =>
    if a.toNat < b.toNat then true
    else if b.toNat < a.toNat then false
    else strLe as bs

/-- Insert into a sorted list of strings. -/
def insertSorted (x : Str) : List Str → List Str
  | [] => [x]
  | y :: ys => if strLe x y then x :: y :: ys else y :: insertSorted x ys

/-- `slices.Sort` on a slice of strings (insertion sort). -/
def sortStrs : List Str → List Str
  | [] => []
  | x :: xs => insertSorted x (sortStrs xs)

/-- Go's `map[string]string`, as an association list. -/
abbrev BranchMap := List (Str × Str)

/-- Go map indexing `m[k]`. -/
def mapGet (m : BranchMap) (k : Str) : Option Str := m.lookup k

/-- Go map assignment `m[k] = v`. -/
def mapPut (m : BranchMap) (k v : Str) : BranchMap :=
  (k, v) :: m.filter (fun p => p.1 != k)

/-- `sortedKeys` from `main.go`: the keys of the map, sorted. -/
def sortedKeys (m : BranchMap) : List Str := sortStrs (m.map Prod.fst)

/-- `contains` from `main.go`: membership in a sorted slice, decided there
by `slices.BinarySearch` and embedded here by that function's contract. -/
def containsStr (xs : List Str) (x : Str) : Bool := xs.contains x

/-- A worktree: a directory and the branch that was checked out there when
the run started. -/
structure worktree where
  dir : Str
  branch : Str
deriving DecidableEq

/-- The `state` struct of `main.go` (version 0.0.6). -/
structure state where
  worktrees : List worktree
  branches : BranchMap
  branchesToRebase : List Str
  currentDir : Str
  targetBranch : Str
deriving DecidableEq

/-- Go error values, modelled structurally: `text` is a leaf error
(`errors.New` or an `exec` failure), `wrap m e` is `fmt.Errorf` with one
`%w` verb and surrounding text `m`, `pair` is `fmt.Errorf("%w; %w", ...)`,
and `joinE` is `errors.Join` of two non-nil errors. -/
inductive Err where
  | text (msg : Str)
  | wrap (msg : Str) (e : Err)
  | pair (e1 e2 : Err)
  | joinE (e1 e2 : Err)
deriving DecidableEq

/-- The git invocations the program makes that the claims quantify over:
`status` is the only traced read, the rest mutate checkout state. -/
inductive Ev where
  | statusEv (dir : Str)
  | fetchEv (dir : Str)
  | checkoutEv (dir ref : Str)
  | pullEv (dir : Str)
  | rebaseEv (dir target : Str)
  | abortEv (dir : Str)
deriving DecidableEq

/-- The oracle environment: the outcomes the `git` binary would produce for
each invocation the program can make.  `rebaseRes dir cur target` and
`abortRes dir cur` are the outcomes with branch `cur` checked out in `dir`
(`none` means success; `some out` is a failure with output `out`). -/
structure Env where
  versionOk : Bool
  versionRaw : Str
  insideWorkTree : Bool
  cwd : Str
  worktreesOk : Bool
  worktreesRaw : Str
  branchesOk : Bool
  branchesRaw : Str
  statusOk : Str → Bool
  statusRaw : Str → Str
  fetchOk : Str → Bool
  headSHA : Str → Option Str
  checkoutRes : Str → Str → Option Str
  pullOk : Str → Bool
  rebaseRes : Str → Str → Str → Option Str
  abortRes : Str → Str → Option Str
  branchSHA : Str → Str → Option Str
  containsOk : Str → Str → Bool
  containsRaw : Str → Str → Str

/-! ## The git helper file (the first section of `part_004`) -/

/-- The loop of `branches`: each line of
`git branch --format="%(refname:short) %(objectname)"` is trimmed and cut at
the first space into a branch name and its commit SHA. -/
def branchesLoop : List Str → BranchMap → Except Err BranchMap
  | [], m => .ok m
  | ln :: restLines, m =>
    let line := trimStr ln
    match cutChar ' ' line with
    | none => .error (.text (lit "expected the output from git branch to be in the form branch commit-sha"))
    | some (branch, commitSHA) => branchesLoop restLines (mapPut m branch commitSHA)

/-- `branches` from the git helper file: the map from local branch name to
commit SHA. -/
def branchesFn (env : Env) : Except Err BranchMap :=
  if !env.branchesOk then .error (.text (lit "running git branch")) else
  branchesLoop (scanLines env.branchesRaw) []

/-- The `fmt.Sscanf(line, "worktree %s", &dir)` shape check of `worktrees`. -/
def scanWorktreeDir (s : Str) : Option Str :=
  match chopLit (lit "worktree") s with
  | none => none
  | some r => (scanToken (r.dropWhile (fun c => c = ' '))).map Prod.fst

/-- The `fmt.Sscanf(line, "branch refs/heads/%s", &branch)` shape check of
`worktrees`. -/
def scanBranchRef (s : Str) : Option Str :=
  match chopLit (lit "branch") s with
  | none => none
  | some r1 =>
    match chopLit (lit "refs/heads/") (r1.dropWhile (fun c => c = ' ')) with
    | none => none
    | some r2 => (scanToken r2).map Prod.fst

/-- One record of `git worktree list --porcelain -z` output must have
exactly three NUL-separated fields, a `worktree <dir>` first field and a
`branch refs/heads/<branch>` third field. -/
def parseWorktreeRecord (w : Str) : Except Err worktree :=
  let fields := splitChar '\x00' w
  if fields.length ≠ 3 then .error (.text (lit "expected the worktree to have 3 lines")) else
  match scanWorktreeDir (fields.getD 0 []) with
  | none => .error (.text (lit "expected text in the form worktree dir"))
  | some dir =>
    match scanBranchRef (fields.getD 2 []) with
    | none => .error (.text (lit "expected text in the form branch refs/heads/branch"))
    | some branch => .ok { dir := dir, branch := branch }

/-- The loop of `worktrees`: parse each record, returning the first error. -/
def parseWorktreeRecords : List Str → Except Err (List worktree)
  | [] => .ok []
  | w :: ws =>
    match parseWorktreeRecord w with
    | .error e => .error e
    | .ok wt =>
      match parseWorktreeRecords ws with
      | .error e => .error e
      | .ok wts => .ok (wt :: wts)

/-- The records of the raw `-z` worktree listing: split on double NUL,
empty pieces removed. -/
def worktreeRecords (raw : Str) : List Str :=
  (splitNulNul raw).filter (fun s => !s.isEmpty)

/-- `worktrees` from the git helper file. -/
def worktreesFn (env : Env) : Except Err (List worktree) :=
  if !env.worktreesOk then .error (.text (lit "running git worktree list")) else
  parseWorktreeRecords (worktreeRecords env.worktreesRaw)

/-- The per-line filter of `status`: `slices.DeleteFunc` removes empty lines
and untracked-file (`??`) lines. -/
def statusKeep (s : Str) : Bool := !(s.isEmpty || beginsWith s (lit "??"))

/-- `status` from the git helper file: the lines of
`git status --porcelain=v1` after trimming the whole output, splitting on
newlines, and deleting empty and `??` lines. -/
def statusFn (env : Env) (dir : Str) : Except Err (List Str) :=
  if !(env.statusOk dir) then .error (.text (lit "running git status")) else
  .ok ((splitChar '\n' (trimStr (env.statusRaw dir))).filter statusKeep)

/-- `checkout` from the git helper file. -/
def checkoutFn (env : Env) (dir branch : Str) : List Ev × Option Err :=
  match env.checkoutRes dir branch with
  | some out =>
    ([.checkoutEv dir branch],
     some (.text (lit "running git checkout " ++ branch ++ lit " (dir: " ++ dir
       ++ lit ", output: " ++ out ++ lit ")")))
  | none => ([.checkoutEv dir branch], none)

/-- `decapitate` from the git helper file: `git rev-parse HEAD` (a read),
then `git checkout <sha>` (the traced mutation). -/
def decapitate (env : Env) (dir : Str) : List Ev × Option Err :=
  match env.headSHA dir with
  | none => ([], some (.text (lit "determining the commit SHA (dir: " ++ dir ++ lit ")")))
  | some sha =>
    match env.checkoutRes dir sha with
    | some out =>
      ([.checkoutEv dir sha],
       some (.text (lit "detaching the HEAD (dir: " ++ dir ++ lit ", output: " ++ out ++ lit ")")))
    | none => ([.checkoutEv dir sha], none)

/-- `fetch` from the git helper file (`git fetch --prune`). -/
def fetchFn (env : Env) (dir : Str) : List Ev × Option Err :=
  if env.fetchOk dir then ([.fetchEv dir], none)
  else ([.fetchEv dir], some (.text (lit "running git fetch")))

/-- `pull` from the git helper file. -/
def pullFn (env : Env) (dir : Str) : List Ev × Option Err :=
  if env.pullOk dir then ([.pullEv dir], none)
  else ([.pullEv dir], some (.text (lit "running git pull")))

/-- The error `rebase` builds for a failed `git rebase <target>
--update-refs`: `fmt.Errorf("failed to rebase %q (output: %s): %w", ...)`. -/
def rebaseFailErr (target out : Str) : Err :=
  .wrap (lit "failed to rebase " ++ target ++ lit " (output: " ++ trimStr out ++ lit ")")
    (.text (lit "exit status"))

/-- The error `rebase` builds for a failed `git rebase --abort`:
`fmt.Errorf("failed to abort the rebase: %w (output: %s)", ...)`. -/
def abortFailErr (out : Str) : Err :=
  .wrap (lit "failed to abort the rebase (output: " ++ trimStr out ++ lit ")")
    (.text (lit "exit status"))

/-- `rebase` from the git helper file: run `git rebase <target>
--update-refs` in `dir` with branch `cur` checked out; on failure, run
exactly one `git rebase --abort` and return the rebase failure combined
with the abort outcome as one error. -/
def rebaseFn (env : Env) (dir target cur : Str) : List Ev × Option Err :=
  match env.rebaseRes dir cur target with
  | none => ([.rebaseEv dir target], none)
  | some out =>
    let e := rebaseFailErr target out
    match env.abortRes dir cur with
    | none =>
      ([.rebaseEv dir target, .abortEv dir], some (.wrap (lit "successfully aborted") e))
    | some aOut =>
      ([.rebaseEv dir target, .abortEv dir], some (.pair e (abortFailErr aOut)))

/-- The loop of `branchChildren` over the raw lines of
`git branch --contains <branch>` output. -/
def branchChildrenLoop (branches : BranchMap) (branch branchSHA : Str) :
    List Str → Except Err (List Str)
  | [] => .ok []
  | line :: restLines =>
    let child := trimStr line
    if child.isEmpty || child == branch || hasSubstr child (lit "HEAD detached") then
      branchChildrenLoop branches branch branchSHA restLines
    else
      match mapGet branches child with
      | none =>
        .error (.text (lit "unable to find the branch " ++ child
          ++ lit " in the state: this should be unreachable"))
      | some childSHA =>
        if childSHA == branchSHA then branchChildrenLoop branches branch branchSHA restLines
        else
          match branchChildrenLoop branches branch branchSHA restLines with
          | .error e => .error e
          | .ok out => .ok (child :: out)

/-- `(s *state) branchChildren` from the git helper file (`part_004`): the
branches whose history contains `branch`'s commit, from the raw
`git branch --contains` output, excluding the branch itself, detached-HEAD
pseudo-entries, and branches pointing at the same commit SHA. -/
def state.branchChildren (s : state) (env : Env) (dir branch : Str) : Except Err (List Str) :=
  if !(env.containsOk dir branch) then
    .error (.text (lit "unable to list the branches that contain the branch " ++ branch))
  else
    match mapGet s.branches branch with
    | none =>
      .error (.text (lit "unable to find the branch " ++ branch
        ++ lit " in the state: this should be unreachable"))
    | some branchSHA =>
      branchChildrenLoop s.branches branch branchSHA (splitChar '\n' (env.containsRaw dir branch))

/-! ## `main.go` (version 0.0.6) -/

def minGitMajorVersion : Int := 2

def minGitMinorVersion : Int := 38

/-- `fmt.Sscanf(s, "git version %d.%d.%d", &major, &minor, &patch)`. -/
def parseGitVersion (s : Str) : Option (Int × Int × Int) :=
  match chopLit (lit "git") s with
  | none => none
  | some r1 =>
    match chopLit (lit "version") (r1.dropWhile (fun c => c = ' ')) with
    | none => none
    | some r2 =>
      match scanInt r2 with
      | none => none
      | some (major, r3) =>
        match r3 with
        | '.' :: r4 =>
          match scanInt r4 with
          | none => none
          | some (minor, r5) =>
            match r5 with
            | '.' :: r6 =>
              match scanInt r6 with
              | none => none
              | some (patch, _) => some (major, minor, patch)
            | _ => none
        | _ => none

/-- `validateGitVersion` from `main.go`: parse the reported version and
refuse a major version below 2, or a major version of exactly 2 with a
minor version below 38. -/
def validateGitVersion (env : Env) : Option Err :=
  if !env.versionOk then some (.text (lit "running git --version")) else
  match parseGitVersion (trimStr env.versionRaw) with
  | none => some (.text (lit "expected a version string in the form git version major.minor.patch"))
  | some (major, minor, _) =>
    if major < minGitMajorVersion then
      some (.text (lit "the major version of git is too low"))
    else if major == minGitMajorVersion && minor < minGitMinorVersion then
      some (.text (lit "the minor version of git is too low"))
    else none

/-- `newState` from `main.go` (version 0.0.6): discover worktrees and
branches and resolve the target branch (an explicitly requested branch must
exist; otherwise `main`, then `master`, else fail). -/
def newState (targetBranch : Str) (env : Env) : Except Err state :=
  match worktreesFn env with
  | .error e => .error (.wrap (lit "fetching and parsing worktrees") e)
  | .ok ws =>
    match branchesFn env with
    | .error e => .error (.wrap (lit "listing the local branches") e)
    | .ok bm =>
      let branchNames := sortedKeys bm
      if !targetBranch.isEmpty && !containsStr branchNames targetBranch then
        .error (.text (lit "the specified branch " ++ targetBranch ++ lit " could not be found"))
      else
        let tb1 := if targetBranch.isEmpty && containsStr branchNames (lit "main") then lit "main" else targetBranch
        let tb2 := if tb1.isEmpty && containsStr branchNames (lit "master") then lit "master" else tb1
        if tb2.isEmpty then
          .error (.text (lit "no branch was specified and main and master could not be found"))
        else
          .ok { worktrees := ws, branches := bm, branchesToRebase := [],
                currentDir := env.cwd, targetBranch := tb2 }

/-- The loop of `errIfUncommittedChanges` over the worktrees. -/
def errIfUncommittedChangesLoop (env : Env) : List worktree → List Ev × Option Err
  | [] => ([], none)
  | w :: ws =>
    match statusFn env w.dir with
    | .error e =>
      ([.statusEv w.dir],
       some (.wrap (lit "checking for uncommitted changes (dir: " ++ w.dir ++ lit ")") e))
    | .ok out =>
      if !out.isEmpty then
        ([.statusEv w.dir],
         some (.text (lit "there are uncommitted changes (dir: " ++ w.dir ++ lit ")")))
      else
        let (evs, r) := errIfUncommittedChangesLoop env ws
        (.statusEv w.dir :: evs, r)

/-- `(s *state) errIfUncommittedChanges` from `main.go`. -/
def state.errIfUncommittedChanges (s : state) (env : Env) : List Ev × Option Err :=
  errIfUncommittedChangesLoop env s.worktrees

/-- The loop of `decapitateAll` over the worktrees. -/
def decapitateAllLoop (env : Env) : List worktree → List Ev × Option Err
  | [] => ([], none)
  | w :: ws =>
    match decapitate env w.dir with
    | (evs, some e) =>
      (evs, some (.wrap (lit "failed to the detach the HEAD (dir: " ++ w.dir ++ lit ")") e))
    | (evs, none) =>
      let (evs2, r) := decapitateAllLoop env ws
      (evs ++ evs2, r)

/-- `(s *state) decapitateAll` from `main.go`. -/
def state.decapitateAll (s : state) (env : Env) : List Ev × Option Err :=
  decapitateAllLoop env s.worktrees

/-- The keep-filter loop of `constructBranchesToRebase`: a branch is kept
when it has no children (a leaf), or when the target branch is among its
children and its commit SHA differs from the target's refreshed SHA. -/
def keepLoop (s : state) (env : Env) (targetSHA : Str) : List Str → Except Err (List Str)
  | [] => .ok []
  | branch :: restBranches =>
    match s.branchChildren env s.currentDir branch with
    | .error e => .error e
    | .ok children =>
      if children.isEmpty then
        match keepLoop s env targetSHA restBranches with
        | .error e => .error e
        | .ok ks => .ok (branch :: ks)
      else if children.contains s.targetBranch then
        match mapGet s.branches branch with
        | none =>
          .error (.text (lit "unable to find the branch " ++ branch
            ++ lit " in the state: this should be unreachable"))
        | some branchSHA =>
          if branchSHA != targetSHA then
            match keepLoop s env targetSHA restBranches with
            | .error e => .error e
            | .ok ks => .ok (branch :: ks)
          else keepLoop s env targetSHA restBranches
      else keepLoop s env targetSHA restBranches

/-- `(s *state) constructBranchesToRebase` from `main.go`: the sorted branch
names, filtered to leaves and behind branches, with the target branch
removed at the end. -/
def state.constructBranchesToRebase (s : state) (env : Env) : Except Err state :=
  match mapGet s.branches s.targetBranch with
  | none =>
    .error (.text (lit "unable to find the branch " ++ s.targetBranch
      ++ lit " in the state: this should be unreachable"))
  | some targetSHA =>
    match keepLoop s env targetSHA (sortedKeys s.branches) with
    | .error e => .error e
    | .ok kept => .ok { s with branchesToRebase := kept.filter (fun b => b != s.targetBranch) }

/-- `(s *state) updateTargetBranch` from `main.go`: check out and pull the
target branch in the operating directory, then record its refreshed commit
SHA in the branch map. -/
def state.updateTargetBranch (s : state) (env : Env) : List Ev × Except Err state :=
  match checkoutFn env s.currentDir s.targetBranch with
  | (evs, some e) =>
    (evs, .error (.wrap (lit "checking out the target branch (dir: " ++ s.currentDir
      ++ lit ", branch: " ++ s.targetBranch ++ lit ")") e))
  | (evs, none) =>
    match pullFn env s.currentDir with
    | (evs2, some e) =>
      (evs ++ evs2, .error (.wrap (lit "pulling (dir: " ++ s.currentDir
        ++ lit ", branch: " ++ s.targetBranch ++ lit ")") e))
    | (evs2, none) =>
      match env.branchSHA s.currentDir s.targetBranch with
      | none => (evs ++ evs2, .error (.text (lit "updating the target branch commit SHA")))
      | some newSHA =>
        (evs ++ evs2, .ok { s with branches := mapPut s.branches s.targetBranch newSHA })

/-- The loop of `rebaseBranches` over the planned branches. -/
def rebaseBranchesLoop (s : state) (env : Env) : List Str → List Ev × Option Err
  | [] => ([], none)
  | b :: bs =>
    match checkoutFn env s.currentDir b with
    | (evs, some e) =>
      (evs, some (.wrap (lit "checking out a branch (dir: " ++ s.currentDir
        ++ lit ", branch: " ++ b ++ lit ")") e))
    | (evs, none) =>
      match rebaseFn env s.currentDir s.targetBranch b with
      | (evs2, some e) =>
        (evs ++ evs2, some (.wrap (lit "rebasing " ++ b ++ lit " onto " ++ s.targetBranch
          ++ lit " (dir: " ++ s.currentDir ++ lit ")") e))
      | (evs2, none) =>
        let (evs3, r) := rebaseBranchesLoop s env bs
        (evs ++ evs2 ++ evs3, r)

/-- `(s *state) rebaseBranches` from `main.go`: check out and rebase each
planned branch in order, stopping at the first failure. -/
def state.rebaseBranches (s : state) (env : Env) : List Ev × Option Err :=
  rebaseBranchesLoop s env s.branchesToRebase

/-- The loop of `restore` over the worktrees. -/
def restoreLoop (env : Env) : List worktree → List Ev × Option Err
  | [] => ([], none)
  | w :: ws =>
    match checkoutFn env w.dir w.branch with
    | (evs, some e) =>
      (evs, some (.wrap (lit "restoring the worktree (dir: " ++ w.dir
        ++ lit ", branch: " ++ w.branch ++ lit "): checking out") e))
    | (evs, none) =>
      let (evs2, r) := restoreLoop env ws
      (evs ++ evs2, r)

/-- `(s *state) restore` from `main.go`: check out every worktree's recorded
branch, in order, stopping at the first failure. -/
def state.restore (s : state) (env : Env) : List Ev × Option Err :=
  restoreLoop env s.worktrees

/-- `errors.Join` on two possibly-nil errors (with a single non-nil
argument standing for itself). -/
def joinOpt : Option Err → Option Err → Option Err
  | none, none => none
  | some e, none => some e
  | none, some e => some e
  | some e1, some e2 => some (.joinE e1 e2)

/-- The phases of `run` that execute after the deferred restore has been
registered: detach every worktree, update the target branch, construct the
rebase plan, and execute it. -/
def runAfterFetch (s : state) (env : Env) : List Ev × Option Err :=
  match s.decapitateAll env with
  | (evs, some e) => (evs, some (.wrap (lit "failed to detach the HEAD for each worktree") e))
  | (evs, none) =>
    match s.updateTargetBranch env with
    | (evs2, .error e) =>
      (evs ++ evs2, some (.wrap (lit "updating target branch (" ++ s.targetBranch ++ lit ")") e))
    | (evs2, .ok s2) =>
      match s2.constructBranchesToRebase env with
      | .error e =>
        (evs ++ evs2, some (.wrap (lit "constructing the list of branches to rebase") e))
      | .ok s3 =>
        match s3.rebaseBranches env with
        | (evs3, some e) => (evs ++ evs2 ++ evs3, some (.wrap (lit "rebasing the branches") e))
        | (evs3, none) => (evs ++ evs2 ++ evs3, none)

/-- `run` from `main.go` (version 0.0.6), as a trace of git invocations and
an optional error.  The deferred restore is registered only after a
successful fetch, exactly as in the source: earlier exits return without
restoring. -/
def runM (targetBranch : Str) (env : Env) : List Ev × Option Err :=
  match validateGitVersion env with
  | some e => ([], some (.wrap (lit "validating the version of git") e))
  | none =>
    if !env.insideWorkTree then
      ([], some (.text (lit "checking whether the program is being run from a git directory")))
    else
      match newState targetBranch env with
      | .error e => ([], some (.wrap (lit "constructing state struct") e))
      | .ok s =>
        match s.errIfUncommittedChanges env with
        | (evs, some e) =>
          (evs, some (.wrap (lit "verifying that there are no uncommitted changes") e))
        | (evs, none) =>
          match fetchFn env s.currentDir with
          | (evsF, some e) => (evs ++ evsF, some (.wrap (lit "fetching and pruning") e))
          | (evsF, none) =>
            let body := runAfterFetch s env
            let rst := s.restore env
            (evs ++ evsF ++ body.1 ++ rst.1, joinOpt body.2 rst.2)

/-- The result of Go `flag.Parse` for the flag set of `main` (`-v` bool,
`-b` string): the parsed values plus the positional arguments, or a parse
failure (on which `flag.Parse` prints usage and exits). -/
inductive FlagResult where
  | ok (v : Bool) (b : Str) (positional : List Str)
  | fail
deriving DecidableEq

/-- Go `flag.Parse`: arguments are scanned left to right; the first token
that is not a flag (`-`/`--`-led) stops flag parsing and everything from it
on is positional; `--` alone also stops parsing; an unknown flag or a
malformed value is a parse failure. -/
def parseFlagsLoop : List Str → Bool → Str → FlagResult
  | [], v, b => .ok v b []
  | a :: restArgs, v, b =>
    if a.length < 2 || !(beginsWith a (lit "-")) then .ok v b (a :: restArgs)
    else if a == lit "--" then .ok v b restArgs
    else
      let name := if beginsWith a (lit "--") then a.drop 2 else a.drop 1
      if name.isEmpty || beginsWith name (lit "-") || beginsWith name (lit "=") then .fail
      else
        match cutChar '=' name with
        | some (nm, value) =>
          if nm == lit "v" then
            if value == lit "true" then parseFlagsLoop restArgs true b
            else if value == lit "false" then parseFlagsLoop restArgs false b
            else .fail
          else if nm == lit "b" then parseFlagsLoop restArgs v value
          else .fail
        | none =>
          if name == lit "v" then parseFlagsLoop restArgs true b
          else if name == lit "b" then
            match restArgs with
            | [] => .fail
            | val :: restArgs2 => parseFlagsLoop restArgs2 v val
          else .fail

/-- `main` from `main.go`: parse the flags; `-v` prints the version and
exits 0; a flag-parse failure exits 2 without running; otherwise `run` is
invoked with the `-b` value, exiting 1 on error and 0 on success.  Returns
the exit code and the trace of git invocations. -/
def mainM (args : List Str) (env : Env) : Nat × List Ev :=
  match parseFlagsLoop args false [] with
  | .fail => (2, [])
  | .ok v b _positional =>
    if v then (0, [])
    else
      match runM b env with
      | (evs, some _) => (1, evs)
      | (evs, none) => (0, evs)

/-- The error handling of `main` around `run`: exit code 1 when `run`
returns an error, 0 otherwise. -/
def runExitCode (targetBranch : Str) (env : Env) : Nat :=
  match runM targetBranch env with
  | (_, some _) => 1
  | (_, none) => 0

/-- A worktree-listing record of the shape `worktrees` accepts: exactly
three NUL-separated fields, the first of the form `worktree <dir>` and the
third of the form `branch refs/heads/<branch>`. -/
def wellFormedRecord (w : Str) : Bool :=
  ((splitChar '\x00' w).length == 3)
    && (scanWorktreeDir ((splitChar '\x00' w).getD 0 [])).isSome
    && (scanBranchRef ((splitChar '\x00' w).getD 2 [])).isSome

/-! ## Concrete environments, used to evaluate the theorems -/

/-- An environment in which every git invocation succeeds: one worktree
`/r` on branch `main`, one branch `main`, clean status, empty
`--contains` listings. -/
def envOK : Env where
  versionOk := true
  versionRaw := lit "git version 2.40.1\n"
  insideWorkTree := true
  cwd := lit "/r"
  worktreesOk := true
  worktreesRaw := lit "worktree /r\x00HEAD aaa\x00branch refs/heads/main\x00\x00"
  branchesOk := true
  branchesRaw := lit "main aaa\n"
  statusOk := fun _ => true
  statusRaw := fun _ => []
  fetchOk := fun _ => true
  headSHA := fun _ => some (lit "aaa")
  checkoutRes := fun _ _ => none
  pullOk := fun _ => true
  rebaseRes := fun _ _ _ => none
  abortRes := fun _ _ => none
  branchSHA := fun _ _ => some (lit "bbb")
  containsOk := fun _ _ => true
  containsRaw := fun _ _ => []

/-- The state `newState` constructs in `envOK`. -/
def stOK : state where
  worktrees := [⟨lit "/r", lit "main"⟩]
  branches := [(lit "main", lit "aaa")]
  branchesToRebase := []
  currentDir := lit "/r"
  targetBranch := lit "main"

/-- `envOK` with a worktree that has a modified tracked file. -/
def envDirty : Env := { envOK with statusRaw := fun _ => lit " M file.go\n" }

/-- `envOK` with a worktree whose status output has only untracked-file
(`??`) entries. -/
def envUntracked : Env := { envOK with statusRaw := fun _ => lit "?? foo.txt\n?? bar/\n" }

/-- `envOK` reporting a git version below the 2.38 minimum. -/
def envOld : Env := { envOK with versionRaw := lit "git version 2.37.5\n" }

/-- A state with three branches `a`, `b`, `main` at distinct commits. -/
def stDemo : state where
  worktrees := [⟨lit "/r", lit "main"⟩]
  branches := [(lit "a", lit "s1"), (lit "b", lit "s2"), (lit "main", lit "s3")]
  branchesToRebase := []
  currentDir := lit "/r"
  targetBranch := lit "main"

/-- `envOK` with a `--contains` listing carrying the branch itself, a
whitespace-padded child, and a detached-HEAD pseudo-entry. -/
def envChildren : Env :=
  { envOK with containsRaw := fun _ _ => lit "a\n  b\nmain\n(HEAD detached at aaa)\n" }

/-- `envOK` with `--contains` listings describing the chain
`a → b` with `main` also containing `a`: branch `b` is a leaf and branch
`a` is behind the target. -/
def envPlan : Env :=
  { envOK with containsRaw := fun _ br =>
      (if br = lit "a" then lit "a\nb\nmain\n"
       else if br = lit "main" then lit "main\n"
       else lit "b\n") }

/-- `stDemo` with the rebase plan `[a, b, c]` and a third branch `c`. -/
def stRebase : state :=
  { stDemo with
      branches := (lit "c", lit "s4") :: stDemo.branches,
      branchesToRebase := [lit "a", lit "b", lit "c"] }

/-- `envOK` in which the rebase performed with branch `b` checked out
fails with a conflict, and the subsequent abort succeeds. -/
def envRebase : Env :=
  { envOK with rebaseRes := fun _ cur _ => if cur = lit "b" then some (lit "CONFLICT\n") else none }

/-- A raw worktree listing whose single record is a detached-HEAD worktree
(its third field is `detached`, not `branch refs/heads/<name>`). -/
def rawDetached : Str := lit "worktree /r\x00HEAD aaa\x00detached\x00\x00"

/-- `envOK` with the detached-HEAD worktree listing. -/
def envDetached : Env := { envOK with worktreesRaw := rawDetached }

/-! ## Helper lemmas -/

theorem insertSorted_perm (x : Str) (l : List Str) : (insertSorted x l).Perm (x :: l) := by
  induction l with
  | nil => simp [insertSorted]
  | cons y ys ih =>
    simp only [insertSorted]
    split
    · exact List.Perm.refl _
    · exact (ih.cons y).trans (List.Perm.swap x y ys)

theorem sortStrs_perm (l : List Str) : (sortStrs l).Perm l := by
  induction l with
  | nil => simp [sortStrs]
  | cons x xs ih => exact (insertSorted_perm x (sortStrs xs)).trans (ih.cons x)

theorem mem_sortedKeys (m : BranchMap) (b : Str) :
    b ∈ sortedKeys m ↔ b ∈ m.map Prod.fst :=
  (sortStrs_perm (m.map Prod.fst)).mem_iff

theorem containsStr_iff (xs : List Str) (x : Str) : containsStr xs x = true ↔ x ∈ xs :=
  List.elem_iff

theorem containsStr_sortedKeys (m : BranchMap) (b : Str) :
    containsStr (sortedKeys m) b = true ↔ b ∈ m.map Prod.fst :=
  (containsStr_iff _ _).trans (mem_sortedKeys m b)

/-! ## Claim theorems -/

/-- C7: the run refuses to proceed, with a distinct pre-flight error and
before any git invocation, whenever the reported git version is below the
2.38 minimum: for a successfully parsed version report,
`validateGitVersion` returns an error if and only if the major version is
below 2, or the major version is exactly 2 and the minor version is below
38; and whenever it returns an error, `run` terminates at once with that
error wrapped in the version-validation context and an empty trace. -/
theorem validateGitVersion_spec (env : Env) (major minor patch : Int)
    (hok : env.versionOk = true)
    (hp : parseGitVersion (trimStr env.versionRaw) = some (major, minor, patch)) :
    ((validateGitVersion env).isSome ↔ (major < 2 ∨ (major = 2 ∧ minor < 38)))
    ∧ (∀ tb e, validateGitVersion env = some e →
        runM tb env = ([], some (.wrap (lit "validating the version of git") e))) := by
  constructor
  · simp only [validateGitVersion, hok, Bool.not_true, Bool.false_eq_true, if_false, hp,
      minGitMajorVersion, minGitMinorVersion]
    split
    · rename_i h1
      simp only [Option.isSome_some, true_iff]
      exact Or.inl h1
    · rename_i h1
      split
      · rename_i h2
        simp only [Bool.and_eq_true, beq_iff_eq, decide_eq_true_eq] at h2
        simp only [Option.isSome_some, true_iff]
        exact Or.inr h2
      · rename_i h2
        simp only [Bool.and_eq_true, beq_iff_eq, decide_eq_true_eq, not_and] at h2
        simp only [Option.isSome_none, Bool.false_eq_true, false_iff]
        rintro (h | ⟨he, hm⟩)
        · exact h1 h
        · exact h2 he hm
  · intro tb e h
    simp [runM, h]

/-- C7 witness: the version report `git version 2.37.5` is rejected. -/
theorem validateGitVersion_spec_witness : (validateGitVersion envOld).isSome :=
  (validateGitVersion_spec envOld 2 37 5 (by decide) (by decide)).1.mpr (by decide)

/-- C6: target resolution in `newState` — an explicitly requested branch is
used when it exists among the discovered branches and is an error when it
does not; with no request, `main` is preferred, then `master`; with no
request and neither branch present, `newState` fails. -/
theorem newState_target_resolution (tb : Str) (env : Env) (ws : List worktree) (bm : BranchMap)
    (hw : worktreesFn env = .ok ws) (hb : branchesFn env = .ok bm) :
    (tb ≠ [] → tb ∈ bm.map Prod.fst →
       newState tb env = .ok ⟨ws, bm, [], env.cwd, tb⟩)
    ∧ (tb ≠ [] → tb ∉ bm.map Prod.fst → ∃ e, newState tb env = .error e)
    ∧ (lit "main" ∈ bm.map Prod.fst →
       newState [] env = .ok ⟨ws, bm, [], env.cwd, lit "main"⟩)
    ∧ (lit "main" ∉ bm.map Prod.fst → lit "master" ∈ bm.map Prod.fst →
       newState [] env = .ok ⟨ws, bm, [], env.cwd, lit "master"⟩)
    ∧ (lit "main" ∉ bm.map Prod.fst → lit "master" ∉ bm.map Prod.fst →
       ∃ e, newState [] env = .error e) := by
  have hme : (lit "main").isEmpty = false := by decide
  have hmse : (lit "master").isEmpty = false := by decide
  refine ⟨?_, ?_, ?_, ?_, ?_⟩
  · intro hne hmem
    have hc : containsStr (sortedKeys bm) tb = true := (containsStr_sortedKeys bm tb).mpr hmem
    have hemp : tb.isEmpty = false := by simp [List.isEmpty_iff, hne]
    simp [newState, hw, hb, hc, hemp]
  · intro hne hmem
    have hc : containsStr (sortedKeys bm) tb = false := by
      rw [Bool.eq_false_iff]
      intro h
      exact hmem ((containsStr_sortedKeys bm tb).mp h)
    have hemp : tb.isEmpty = false := by simp [List.isEmpty_iff, hne]
    cases h : newState tb env with
    | error e => exact ⟨e, rfl⟩
    | ok s => rw [newState, hw, hb] at h; simp [hc, hemp] at h
  · intro hmem
    have hc : containsStr (sortedKeys bm) (lit "main") = true :=
      (containsStr_sortedKeys bm _).mpr hmem
    simp [newState, hw, hb, hc, hme]
  · intro hno hmem
    have hc1 : containsStr (sortedKeys bm) (lit "main") = false := by
      rw [Bool.eq_false_iff]
      intro h
      exact hno ((containsStr_sortedKeys bm _).mp h)
    have hc2 : containsStr (sortedKeys bm) (lit "master") = true :=
      (containsStr_sortedKeys bm _).mpr hmem
    simp [newState, hw, hb, hc1, hc2, hmse]
  · intro hno1 hno2
    have hc1 : containsStr (sortedKeys bm) (lit "main") = false := by
      rw [Bool.eq_false_iff]
      intro h
      exact hno1 ((containsStr_sortedKeys bm _).mp h)
    have hc2 : containsStr (sortedKeys bm) (lit "master") = false := by
      rw [Bool.eq_false_iff]
      intro h
      exact hno2 ((containsStr_sortedKeys bm _).mp h)
    cases h : newState [] env with
    | error e => exact ⟨e, rfl⟩
    | ok s => rw [newState, hw, hb] at h; simp [hc1, hc2] at h

/-- C6 witness: in `envOK` (one branch, `main`), the default resolution
picks `main`. -/
theorem newState_target_resolution_witness :
    newState [] envOK = .ok ⟨[⟨lit "/r", lit "main"⟩], [(lit "main", lit "aaa")], [],
      lit "/r", lit "main"⟩ :=
  (newState_target_resolution [] envOK [⟨lit "/r", lit "main"⟩] [(lit "main", lit "aaa")]
    rfl rfl).2.2.1 (by decide)

theorem branchChildrenLoop_mem (branches : BranchMap) (branch branchSHA child : Str)
    (hc : trimStr child = child) (hne : child ≠ [])
    (hhd : hasSubstr child (lit "HEAD detached") = false) :
    ∀ (lines out : List Str),
      branchChildrenLoop branches branch branchSHA lines = .ok out →
      (child ∈ out ↔ ((∃ line ∈ lines, trimStr line = child) ∧ child ≠ branch ∧
        ∃ cSHA, mapGet branches child = some cSHA ∧ cSHA ≠ branchSHA)) := by
  intro lines
  induction lines with
  | nil =>
    intro out h
    simp only [branchChildrenLoop] at h
    cases h
    simp
  | cons line restLines ih =>
    intro out h
    simp only [branchChildrenLoop] at h
    by_cases hskip :
        ((trimStr line).isEmpty || trimStr line == branch
          || hasSubstr (trimStr line) (lit "HEAD detached")) = true
    · rw [if_pos hskip] at h
      by_cases htl : trimStr line = child
      · have hcb : child = branch := by
          rw [htl] at hskip
          rcases Bool.or_eq_true_iff.mp hskip with h1 | h1
          · rcases Bool.or_eq_true_iff.mp h1 with h2 | h2
            · exact absurd (List.isEmpty_iff.mp h2) hne
            · exact beq_iff_eq.mp h2
          · exact absurd h1 (by simp [hhd])
        rw [ih out h]
        subst hcb
        simp
      · rw [ih out h]
        simp only [List.mem_cons]
        constructor
        · rintro ⟨h1, h2, h3⟩
          exact ⟨⟨h1.choose, Or.inr h1.choose_spec.1, h1.choose_spec.2⟩, h2, h3⟩
        · rintro ⟨⟨l, hl | hl, hl2⟩, h2, h3⟩
          · exact absurd (hl ▸ hl2) htl
          · exact ⟨⟨l, hl, hl2⟩, h2, h3⟩
    · rw [if_neg hskip] at h
      rw [Bool.or_eq_true_iff, Bool.or_eq_true_iff] at hskip
      push_neg at hskip
      obtain ⟨⟨hemp, hbr⟩, hdet⟩ := hskip
      cases hmg : mapGet branches (trimStr line) with
      | none => simp only [hmg] at h; exact Except.noConfusion h
      | some cSHA =>
        simp only [hmg] at h
        by_cases heq : (cSHA == branchSHA) = true
        · rw [if_pos heq] at h
          have heq' : cSHA = branchSHA := beq_iff_eq.mp heq
          rw [ih out h]
          simp only [List.mem_cons]
          by_cases htl : trimStr line = child
          · have hmg' : mapGet branches child = some branchSHA := by
              rw [← htl, hmg, heq']
            constructor
            · rintro ⟨h1, h2, h3⟩
              exact ⟨⟨h1.choose, Or.inr h1.choose_spec.1, h1.choose_spec.2⟩, h2, h3⟩
            · rintro ⟨⟨l, hl | hl, hl2⟩, h2, cS, h3, h4⟩
              · rw [hmg'] at h3
                cases h3
                exact absurd rfl h4
              · exact ⟨⟨l, hl, hl2⟩, h2, cS, h3, h4⟩
          · constructor
            · rintro ⟨h1, h2, h3⟩
              exact ⟨⟨h1.choose, Or.inr h1.choose_spec.1, h1.choose_spec.2⟩, h2, h3⟩
            · rintro ⟨⟨l, hl | hl, hl2⟩, h2, h3⟩
              · exact absurd (hl ▸ hl2) htl
              · exact ⟨⟨l, hl, hl2⟩, h2, h3⟩
        · rw [if_neg heq] at h
          have heq' : cSHA ≠ branchSHA := fun hh => heq (beq_iff_eq.mpr hh)
          cases hrec : branchChildrenLoop branches branch branchSHA restLines with
          | error e => simp only [hrec] at h; exact Except.noConfusion h
          | ok out' =>
            simp only [hrec] at h
            cases h
            by_cases htl : trimStr line = child
            · have hcb : child ≠ branch := fun hh => hbr (beq_iff_eq.mpr (htl.trans hh))
              have hmg' : mapGet branches child = some cSHA := by rw [← htl, hmg]
              refine iff_of_true (by rw [htl]; exact List.mem_cons_self _ _) ?_
              exact ⟨⟨line, List.mem_cons_self _ _, htl⟩, hcb, cSHA, hmg', heq'⟩
            · have hlc : ¬ child = trimStr line := fun hh => htl hh.symm
              rw [List.mem_cons]
              rw [ih out' hrec]
              simp only [List.mem_cons]
              constructor
              · rintro (h1 | ⟨h1, h2, h3⟩)
                · exact absurd h1 hlc
                · exact ⟨⟨h1.choose, Or.inr h1.choose_spec.1, h1.choose_spec.2⟩, h2, h3⟩
              · rintro ⟨⟨l, hl | hl, hl2⟩, h2, h3⟩
                · exact absurd (hl ▸ hl2) htl
                · exact Or.inr ⟨⟨l, hl, hl2⟩, h2, h3⟩

/-- C2: the branch graph records an edge `branch → child` (for a
well-formed branch name `child`: trimmed, nonempty, not a detached-HEAD
pseudo-entry) exactly when the `git branch --contains branch` report lists
`child`, `child` differs from `branch`, and the two branches' recorded
commit SHAs differ; in particular a branch pointing at the identical commit
is never reported as a descendant. -/
theorem branchChildren_mem (s : state) (env : Env) (dir branch child : Str) (out : List Str)
    (h : s.branchChildren env dir branch = .ok out)
    (hc : trimStr child = child) (hne : child ≠ [])
    (hhd : hasSubstr child (lit "HEAD detached") = false) :
    child ∈ out ↔
      ((∃ line ∈ splitChar '\n' (env.containsRaw dir branch), trimStr line = child)
        ∧ child ≠ branch
        ∧ ∃ cSHA bSHA, mapGet s.branches child = some cSHA
            ∧ mapGet s.branches branch = some bSHA ∧ cSHA ≠ bSHA) := by
  rw [state.branchChildren] at h
  by_cases hco : env.containsOk dir branch = true
  · rw [hco] at h
    simp only [Bool.not_true, Bool.false_eq_true, if_false] at h
    cases hmg : mapGet s.branches branch with
    | none => simp only [hmg] at h; exact Except.noConfusion h
    | some bSHA =>
      simp only [hmg] at h
      rw [branchChildrenLoop_mem s.branches branch bSHA child hc hne hhd _ out h]
      constructor
      · rintro ⟨h1, h2, cSHA, h3, h4⟩
        exact ⟨h1, h2, cSHA, bSHA, h3, rfl, h4⟩
      · rintro ⟨h1, h2, cSHA, bSHA', h3, h4, h5⟩
        cases h4
        exact ⟨h1, h2, cSHA, h3, h5⟩
  · rw [Bool.not_eq_true] at hco
    rw [hco] at h
    simp only [Bool.not_false, if_true] at h
    cases h

/-- C2 witness: in `envChildren`, querying the children of `a` in `stDemo`
yields `[b, main]`, and membership of `b` matches the edge condition. -/
theorem branchChildren_mem_witness :
    (lit "b") ∈ [lit "b", lit "main"] ↔
      ((∃ line ∈ splitChar '\n' (envChildren.containsRaw (lit "/r") (lit "a")),
          trimStr line = lit "b")
        ∧ lit "b" ≠ lit "a"
        ∧ ∃ cSHA bSHA, mapGet stDemo.branches (lit "b") = some cSHA
            ∧ mapGet stDemo.branches (lit "a") = some bSHA ∧ cSHA ≠ bSHA) :=
  branchChildren_mem stDemo envChildren (lit "/r") (lit "a") (lit "b") [lit "b", lit "main"]
    rfl (by decide) (by decide) (by decide)

theorem keepLoop_mem (s : state) (env : Env) (tS : Str) (b : Str) :
    ∀ (l kept : List Str), keepLoop s env tS l = .ok kept →
      (b ∈ kept ↔ b ∈ l ∧ ∃ cs, s.branchChildren env s.currentDir b = .ok cs ∧
        (cs = [] ∨ (s.targetBranch ∈ cs ∧
          ∃ bSHA, mapGet s.branches b = some bSHA ∧ bSHA ≠ tS))) := by
  intro l
  induction l with
  | nil =>
    intro kept h
    simp only [keepLoop] at h
    cases h
    simp
  | cons branch restBranches ih =>
    intro kept h
    simp only [keepLoop] at h
    cases hbc : s.branchChildren env s.currentDir branch with
    | error e => simp only [hbc] at h; exact Except.noConfusion h
    | ok children =>
      simp only [hbc] at h
      by_cases hemp : children.isEmpty = true
      · rw [if_pos hemp] at h
        have hnil : children = [] := List.isEmpty_iff.mp hemp
        cases hrec : keepLoop s env tS restBranches with
        | error e => simp only [hrec] at h; exact Except.noConfusion h
        | ok ks =>
          simp only [hrec] at h
          cases h
          by_cases hbb : b = branch
          · subst hbb
            refine iff_of_true (List.mem_cons_self _ _) ?_
            exact ⟨List.mem_cons_self _ _, children, hbc, Or.inl hnil⟩
          · rw [List.mem_cons, List.mem_cons]
            rw [ih ks hrec]
            simp [hbb]
      · rw [if_neg hemp] at h
        have hnil : children ≠ [] := fun hh => hemp (List.isEmpty_iff.mpr hh)
        by_cases hct : children.contains s.targetBranch = true
        · rw [if_pos hct] at h
          have hmt : s.targetBranch ∈ children := List.elem_iff.mp hct
          cases hmg : mapGet s.branches branch with
          | none => simp only [hmg] at h; exact Except.noConfusion h
          | some branchSHA =>
            simp only [hmg] at h
            by_cases hsha : (branchSHA != tS) = true
            · rw [if_pos hsha] at h
              have hsha' : branchSHA ≠ tS := bne_iff_ne.mp hsha
              cases hrec : keepLoop s env tS restBranches with
              | error e => simp only [hrec] at h; exact Except.noConfusion h
              | ok ks =>
                simp only [hrec] at h
                cases h
                by_cases hbb : b = branch
                · subst hbb
                  refine iff_of_true (List.mem_cons_self _ _) ?_
                  exact ⟨List.mem_cons_self _ _, children, hbc,
                    Or.inr ⟨hmt, branchSHA, hmg, hsha'⟩⟩
                · rw [List.mem_cons, List.mem_cons]
                  rw [ih ks hrec]
                  simp [hbb]
            · rw [if_neg hsha] at h
              have hsha' : branchSHA = tS := by
                by_contra hh
                exact hsha (bne_iff_ne.mpr hh)
              by_cases hbb : b = branch
              · subst hbb
                rw [ih kept h]
                refine iff_of_false ?_ ?_
                · intro hx
                  obtain ⟨hmem, cs, hcs, hdis⟩ := hx
                  rw [hbc] at hcs
                  cases hcs
                  rcases hdis with h1 | ⟨h1, bSHA, h2, h3⟩
                  · exact hnil h1
                  · rw [hmg] at h2
                    cases h2
                    exact h3 hsha'
                · intro hx
                  obtain ⟨hmem, cs, hcs, hdis⟩ := hx
                  rw [hbc] at hcs
                  cases hcs
                  rcases hdis with h1 | ⟨h1, bSHA, h2, h3⟩
                  · exact hnil h1
                  · rw [hmg] at h2
                    cases h2
                    exact h3 hsha'
              · rw [ih kept h, List.mem_cons]
                simp [hbb]
        · rw [if_neg hct] at h
          have hnt : s.targetBranch ∉ children := fun hh => hct (List.elem_iff.mpr hh)
          by_cases hbb : b = branch
          · subst hbb
            rw [ih kept h]
            refine iff_of_false ?_ ?_
            · intro hx
              obtain ⟨hmem, cs, hcs, hdis⟩ := hx
              rw [hbc] at hcs
              cases hcs
              rcases hdis with h1 | ⟨h1, _⟩
              · exact hnil h1
              · exact hnt h1
            · intro hx
              obtain ⟨hmem, cs, hcs, hdis⟩ := hx
              rw [hbc] at hcs
              cases hcs
              rcases hdis with h1 | ⟨h1, _⟩
              · exact hnil h1
              · exact hnt h1
          · rw [ih kept h, List.mem_cons]
            simp [hbb]

/-- C1: for every state whose branch snapshot contains the target branch
(so that `constructBranchesToRebase` succeeds), the computed rebase plan
contains exactly the non-target branches that are leaves (empty child set)
or behind the target (the target is among their children and their commit
SHA differs from the target's recorded SHA); in particular the target is
never in the plan, and every excluded branch is a non-leaf, non-behind
branch. -/
theorem constructBranchesToRebase_mem (s s2 : state) (env : Env) (b : Str)
    (h : s.constructBranchesToRebase env = .ok s2) :
    b ∈ s2.branchesToRebase ↔
      (b ≠ s.targetBranch ∧ b ∈ s.branches.map Prod.fst ∧
       ∃ cs, s.branchChildren env s.currentDir b = .ok cs ∧
         (cs = [] ∨ (s.targetBranch ∈ cs ∧
           ∃ bSHA tSHA, mapGet s.branches b = some bSHA
             ∧ mapGet s.branches s.targetBranch = some tSHA ∧ bSHA ≠ tSHA))) := by
  rw [state.constructBranchesToRebase] at h
  cases hmg : mapGet s.branches s.targetBranch with
  | none => simp only [hmg] at h; exact Except.noConfusion h
  | some tS =>
    simp only [hmg] at h
    cases hkl : keepLoop s env tS (sortedKeys s.branches) with
    | error e => simp only [hkl] at h; exact Except.noConfusion h
    | ok kept =>
      simp only [hkl] at h
      cases h
      simp only [List.mem_filter, bne_iff_ne]
      rw [keepLoop_mem s env tS b _ kept hkl, mem_sortedKeys]
      constructor
      · rintro ⟨⟨hmem, cs, hcs, hdis⟩, hne⟩
        refine ⟨hne, hmem, cs, hcs, ?_⟩
        rcases hdis with h1 | ⟨h1, bSHA, h2, h3⟩
        · exact Or.inl h1
        · exact Or.inr ⟨h1, bSHA, tS, h2, rfl, h3⟩
      · rintro ⟨hne, hmem, cs, hcs, hdis⟩
        refine ⟨⟨hmem, cs, hcs, ?_⟩, hne⟩
        rcases hdis with h1 | ⟨h1, bSHA, tSHA, h2, h3, h4⟩
        · exact Or.inl h1
        · cases h3
          exact Or.inr ⟨h1, bSHA, h2, h4⟩

/-- C1 witness: in `envPlan` with `stDemo` (chain `a → b`, `main` also a
child of `a`), the plan is `[a, b]`: `a` (behind the target) satisfies the
membership condition. -/
theorem constructBranchesToRebase_mem_witness :
    (lit "a") ∈ [lit "a", lit "b"] ↔
      ((lit "a") ≠ stDemo.targetBranch ∧ (lit "a") ∈ stDemo.branches.map Prod.fst ∧
       ∃ cs, stDemo.branchChildren envPlan stDemo.currentDir (lit "a") = .ok cs ∧
         (cs = [] ∨ (stDemo.targetBranch ∈ cs ∧
           ∃ bSHA tSHA, mapGet stDemo.branches (lit "a") = some bSHA
             ∧ mapGet stDemo.branches stDemo.targetBranch = some tSHA ∧ bSHA ≠ tSHA))) :=
  constructBranchesToRebase_mem stDemo
    { stDemo with branchesToRebase := [lit "a", lit "b"] } envPlan (lit "a") rfl

theorem errLoop_clean (env : Env) (ws : List worktree)
    (hcl : ∀ w ∈ ws, statusFn env w.dir = .ok []) :
    errIfUncommittedChangesLoop env ws = (ws.map (fun w => .statusEv w.dir), none) := by
  induction ws with
  | nil => rfl
  | cons w ws ih =>
    have h1 : statusFn env w.dir = .ok [] := hcl w (List.mem_cons_self _ _)
    simp only [errIfUncommittedChangesLoop, h1, List.isEmpty_nil, Bool.not_true,
      Bool.false_eq_true, if_false, List.map]
    rw [ih (fun x hx => hcl x (List.mem_cons_of_mem _ hx))]

theorem errLoop_dirty (env : Env) (ws : List worktree)
    (hok : ∀ w ∈ ws, env.statusOk w.dir = true)
    (hd : ∃ w ∈ ws, ∃ out, statusFn env w.dir = .ok out ∧ out ≠ []) :
    ∃ evs d, errIfUncommittedChangesLoop env ws =
        (evs, some (.text (lit "there are uncommitted changes (dir: " ++ d ++ lit ")")))
      ∧ ∀ ev ∈ evs, ∃ d2, ev = Ev.statusEv d2 := by
  induction ws with
  | nil =>
    obtain ⟨w, hw, _⟩ := hd
    exact absurd hw (List.not_mem_nil w)
  | cons w ws ih =>
    have hok0 : env.statusOk w.dir = true := hok w (List.mem_cons_self _ _)
    have hso : statusFn env w.dir =
        .ok ((splitChar '\n' (trimStr (env.statusRaw w.dir))).filter statusKeep) := by
      rw [statusFn, hok0]
      simp
    by_cases hnil : (splitChar '\n' (trimStr (env.statusRaw w.dir))).filter statusKeep = []
    · have hd' : ∃ x ∈ ws, ∃ out, statusFn env x.dir = .ok out ∧ out ≠ [] := by
        obtain ⟨x, hx, out, hxo, hone⟩ := hd
        rcases List.mem_cons.mp hx with hx1 | hx1
        · subst hx1
          rw [hso] at hxo
          cases hxo
          exact absurd hnil hone
        · exact ⟨x, hx1, out, hxo, hone⟩
      obtain ⟨evs, d, hloop, hall⟩ := ih (fun x hx => hok x (List.mem_cons_of_mem _ hx)) hd'
      refine ⟨.statusEv w.dir :: evs, d, ?_, ?_⟩
      · simp only [errIfUncommittedChangesLoop, hso, hnil, List.isEmpty_nil, Bool.not_true,
          Bool.false_eq_true, if_false]
        rw [hloop]
      · intro ev hev
        rcases List.mem_cons.mp hev with h1 | h1
        · exact ⟨w.dir, h1⟩
        · exact hall ev h1
    · refine ⟨[.statusEv w.dir], w.dir, ?_, ?_⟩
      · have hne : ((splitChar '\n' (trimStr (env.statusRaw w.dir))).filter statusKeep).isEmpty
            = false := by
          rw [Bool.eq_false_iff]
          intro hh
          exact hnil (List.isEmpty_iff.mp hh)
        simp only [errIfUncommittedChangesLoop, hso, hne, Bool.not_false, if_true]
      · intro ev hev
        rcases List.mem_cons.mp hev with h1 | h1
        · exact ⟨w.dir, h1⟩
        · exact absurd h1 (List.not_mem_nil ev)

/-- C5: if every worktree's status query succeeds and some worktree reports
uncommitted changes, the run terminates with the dirty-worktree error
before any checkout, fetch, pull, detach, or rebase invocation (the trace
holds only status queries), and the process exit code is 1. -/
theorem run_dirty_worktree (tb : Str) (env : Env) (s : state)
    (hv : validateGitVersion env = none) (hin : env.insideWorkTree = true)
    (hs : newState tb env = .ok s)
    (hok : ∀ w ∈ s.worktrees, env.statusOk w.dir = true)
    (hd : ∃ w ∈ s.worktrees, ∃ out, statusFn env w.dir = .ok out ∧ out ≠ []) :
    (∃ evs d, runM tb env =
        (evs, some (.wrap (lit "verifying that there are no uncommitted changes")
          (.text (lit "there are uncommitted changes (dir: " ++ d ++ lit ")"))))
      ∧ ∀ ev ∈ evs, ∃ d2, ev = Ev.statusEv d2)
    ∧ runExitCode tb env = 1 := by
  obtain ⟨evs, d, hloop, hall⟩ := errLoop_dirty env s.worktrees hok hd
  have hrun : runM tb env =
      (evs, some (.wrap (lit "verifying that there are no uncommitted changes")
        (.text (lit "there are uncommitted changes (dir: " ++ d ++ lit ")")))) := by
    simp only [runM, hv, hin, Bool.not_true, Bool.false_eq_true, if_false, hs,
      state.errIfUncommittedChanges]
    rw [hloop]
  refine ⟨⟨evs, d, hrun, hall⟩, ?_⟩
  rw [runExitCode, hrun]

/-- C5 witness: in `envDirty` (a tracked modification in worktree `/r`),
the run exits with code 1. -/
theorem run_dirty_worktree_witness : runExitCode [] envDirty = 1 :=
  (run_dirty_worktree [] envDirty stOK rfl rfl rfl (by decide)
    ⟨⟨lit "/r", lit "main"⟩, by decide, [lit "M file.go"], rfl, by decide⟩).2

theorem decapAllLoop_head_ev (env : Env) (w0 : worktree) (sha0 : Str) (ws : List worktree)
    (h : env.headSHA w0.dir = some sha0) :
    Ev.checkoutEv w0.dir sha0 ∈ (decapitateAllLoop env (w0 :: ws)).1 := by
  simp only [decapitateAllLoop, decapitate, h]
  cases hc : env.checkoutRes w0.dir sha0 with
  | none => simp
  | some out => simp

theorem runAfterFetch_mem_decap (s : state) (env : Env) (ev : Ev)
    (h : ev ∈ (s.decapitateAll env).1) : ev ∈ (runAfterFetch s env).1 := by
  rw [runAfterFetch]
  rcases hda : s.decapitateAll env with ⟨evs, r⟩
  rw [hda] at h
  cases r with
  | some e => simpa using h
  | none =>
    rcases hut : s.updateTargetBranch env with ⟨evs2, r2⟩
    cases r2 with
    | error e => simp [hut, h]
    | ok s2 =>
      cases hcr : s2.constructBranchesToRebase env with
      | error e => simp [hut, hcr, h]
      | ok s3 =>
        rcases hrb : s3.rebaseBranches env with ⟨evs3, r3⟩
        cases r3 with
        | some e => simp [hut, hcr, hrb, h]
        | none => simp [hut, hcr, hrb, h]

/-- C9: a worktree whose status output consists only of untracked-file
(`??`) lines is treated as clean: the pre-flight uncommitted-changes check
returns no error, and (when the earlier phases succeed) the run proceeds to
mutate checkout state, beginning with the detaching checkout of the first
worktree. -/
theorem untracked_only_is_clean (tb : Str) (env : Env) (s : state)
    (hunt : ∀ w ∈ s.worktrees, env.statusOk w.dir = true ∧
      ∀ line ∈ splitChar '\n' (trimStr (env.statusRaw w.dir)),
        line = [] ∨ beginsWith line (lit "??") = true) :
    (s.errIfUncommittedChanges env).2 = none
    ∧ (validateGitVersion env = none → env.insideWorkTree = true →
       newState tb env = .ok s → env.fetchOk s.currentDir = true →
       ∀ w0 sha0, s.worktrees.head? = some w0 → env.headSHA w0.dir = some sha0 →
         Ev.checkoutEv w0.dir sha0 ∈ (runM tb env).1) := by
  have hcl : ∀ w ∈ s.worktrees, statusFn env w.dir = .ok [] := by
    intro w hw
    obtain ⟨hok, hlines⟩ := hunt w hw
    rw [statusFn, hok]
    simp only [Bool.not_true, Bool.false_eq_true, if_false, Except.ok.injEq]
    rw [List.filter_eq_nil_iff]
    intro line hline
    rcases hlines line hline with h1 | h1
    · simp [statusKeep, h1]
    · simp [statusKeep, h1]
  have hloop : errIfUncommittedChangesLoop env s.worktrees =
      (s.worktrees.map (fun w => .statusEv w.dir), none) := errLoop_clean env s.worktrees hcl
  constructor
  · rw [state.errIfUncommittedChanges, hloop]
  · intro hv hin hs hf w0 sha0 hw0 hsha
    have hws : ∃ rest, s.worktrees = w0 :: rest := by
      cases hwt : s.worktrees with
      | nil => rw [hwt] at hw0; cases hw0
      | cons a l =>
        rw [hwt] at hw0
        cases hw0
        exact ⟨l, rfl⟩
    obtain ⟨rest, hws⟩ := hws
    have hmem : Ev.checkoutEv w0.dir sha0 ∈ (runAfterFetch s env).1 := by
      apply runAfterFetch_mem_decap
      rw [state.decapitateAll, hws]
      exact decapAllLoop_head_ev env w0 sha0 rest hsha
    have hrun : runM tb env =
        (s.worktrees.map (fun w => .statusEv w.dir) ++ [Ev.fetchEv s.currentDir]
          ++ (runAfterFetch s env).1 ++ (s.restore env).1,
         joinOpt (runAfterFetch s env).2 (s.restore env).2) := by
      simp only [runM, hv, hin, Bool.not_true, Bool.false_eq_true, if_false, hs,
        state.errIfUncommittedChanges]
      rw [hloop]
      simp only [fetchFn, hf, if_true]
    rw [hrun]
    simp only [List.mem_append]
    exact Or.inl (Or.inr hmem)

/-- C9 witness: in `envUntracked` (`?? foo.txt` and `?? bar/` only), the
check passes and the detaching checkout of `/r` occurs. -/
theorem untracked_only_is_clean_witness :
    (stOK.errIfUncommittedChanges envUntracked).2 = none
    ∧ Ev.checkoutEv (lit "/r") (lit "aaa") ∈ (runM [] envUntracked).1 := by
  have h := untracked_only_is_clean [] envUntracked stOK (by decide)
  exact ⟨h.1, h.2 rfl rfl rfl rfl ⟨lit "/r", lit "main"⟩ (lit "aaa") rfl rfl⟩

theorem parseWorktreeRecords_error (l : List Str)
    (h : ∃ w ∈ l, ∃ e, parseWorktreeRecord w = .error e) :
    ∃ e, parseWorktreeRecords l = .error e := by
  induction l with
  | nil =>
    obtain ⟨w, hw, _⟩ := h
    exact absurd hw (List.not_mem_nil w)
  | cons w ws ih =>
    cases hp : parseWorktreeRecord w with
    | error e => exact ⟨e, by simp [parseWorktreeRecords, hp]⟩
    | ok wt =>
      have h' : ∃ x ∈ ws, ∃ e, parseWorktreeRecord x = .error e := by
        obtain ⟨x, hx, e, hxe⟩ := h
        rcases List.mem_cons.mp hx with h1 | h1
        · subst h1
          rw [hp] at hxe
          exact Except.noConfusion hxe
        · exact ⟨x, h1, e, hxe⟩
      obtain ⟨e, he⟩ := ih h'
      exact ⟨e, by simp [parseWorktreeRecords, hp, he]⟩

theorem parseWorktreeRecord_error_of_malformed (w : Str) (h : wellFormedRecord w = false) :
    ∃ e, parseWorktreeRecord w = .error e := by
  simp only [parseWorktreeRecord]
  by_cases h3 : (splitChar '\x00' w).length = 3
  · rw [if_neg (fun hh => hh h3)]
    cases hd : scanWorktreeDir ((splitChar '\x00' w).getD 0 []) with
    | none =>
      simp only [hd]
      exact ⟨_, rfl⟩
    | some dir =>
      cases hb : scanBranchRef ((splitChar '\x00' w).getD 2 []) with
      | none =>
        simp only [hd, hb]
        exact ⟨_, rfl⟩
      | some branch =>
        exfalso
        rw [wellFormedRecord, hd, hb] at h
        simp [h3] at h
  · rw [if_pos h3]
    exact ⟨_, rfl⟩

/-- C10: worktree discovery fails rather than skips: whenever any record of
the raw `git worktree list --porcelain -z` output is not exactly three
NUL-separated fields with a `worktree <dir>` first field and a
`branch refs/heads/<name>` third field (for example a detached-HEAD or bare
worktree), the parse returns an error, and `run` on such a listing
terminates with an error before any git invocation. -/
theorem worktrees_malformed_fails (raw : Str)
    (hbad : ∃ w ∈ worktreeRecords raw, wellFormedRecord w = false) :
    (∃ e, parseWorktreeRecords (worktreeRecords raw) = .error e)
    ∧ (∀ env, env.worktreesOk = true → env.worktreesRaw = raw →
        ∃ e, worktreesFn env = .error e)
    ∧ (∀ tb env, env.worktreesOk = true → env.worktreesRaw = raw →
        validateGitVersion env = none → env.insideWorkTree = true →
        (runM tb env).1 = [] ∧ (runM tb env).2.isSome = true) := by
  have herr : ∃ e, parseWorktreeRecords (worktreeRecords raw) = .error e := by
    apply parseWorktreeRecords_error
    obtain ⟨w, hw, hwf⟩ := hbad
    exact ⟨w, hw, parseWorktreeRecord_error_of_malformed w hwf⟩
  refine ⟨herr, ?_, ?_⟩
  · intro env hok hraw
    obtain ⟨e, he⟩ := herr
    refine ⟨e, ?_⟩
    rw [worktreesFn, hok, hraw]
    simp only [Bool.not_true, Bool.false_eq_true, if_false]
    exact he
  intro tb env hok hraw hv hin
  obtain ⟨e, he⟩ := herr
  have hwf : worktreesFn env = .error e := by
    rw [worktreesFn, hok, hraw]
    simp only [Bool.not_true, Bool.false_eq_true, if_false]
    exact he
  have hns : newState tb env = .error (.wrap (lit "fetching and parsing worktrees") e) := by
    rw [newState, hwf]
  have hrun : runM tb env = ([], some (.wrap (lit "constructing state struct")
      (.wrap (lit "fetching and parsing worktrees") e))) := by
    simp only [runM, hv, hin, Bool.not_true, Bool.false_eq_true, if_false, hns]
  rw [hrun]
  exact ⟨rfl, rfl⟩

/-- C10 witness: a detached-HEAD worktree record makes the parse fail and
the run stop with an empty trace. -/
theorem worktrees_malformed_fails_witness :
    (∃ e, parseWorktreeRecords (worktreeRecords rawDetached) = .error e)
    ∧ ((runM [] envDetached).1 = [] ∧ (runM [] envDetached).2.isSome = true) := by
  have h := worktrees_malformed_fails rawDetached
    ⟨lit "worktree /r\x00HEAD aaa\x00detached", by decide, by decide⟩
  exact ⟨h.1, h.2.2 [] envDetached rfl rfl rfl rfl⟩

/-- C3 counterexample: the claim that the Restorer runs on every exit path
fails on the dirty-worktree exit: in `envDirty` the state holds worktree
`/r` with branch `main`, the run terminates with an error, yet its trace is
a single status query and contains no checkout of `main` in `/r` — the
Restorer never ran. -/
theorem restore_skipped_on_dirty_exit :
    newState [] envDirty = .ok stOK
    ∧ (runM [] envDirty).2.isSome = true
    ∧ (runM [] envDirty).1 = [Ev.statusEv (lit "/r")]
    ∧ Ev.checkoutEv (lit "/r") (lit "main") ∉ (runM [] envDirty).1 := by
  refine ⟨rfl, rfl, rfl, ?_⟩
  decide

theorem restoreLoop_none_mem (env : Env) (ws : List worktree) :
    ∀ evs, restoreLoop env ws = (evs, none) →
      ∀ w ∈ ws, Ev.checkoutEv w.dir w.branch ∈ evs := by
  induction ws with
  | nil =>
    intro evs _ w hw
    exact absurd hw (List.not_mem_nil w)
  | cons w ws ih =>
    intro evs h x hx
    simp only [restoreLoop, checkoutFn] at h
    cases hc : env.checkoutRes w.dir w.branch with
    | some out =>
      rw [hc] at h
      simp at h
    | none =>
      rw [hc] at h
      rcases hrl : restoreLoop env ws with ⟨evs2, r⟩
      rw [hrl] at h
      simp only [Prod.mk.injEq] at h
      obtain ⟨hevs, hr⟩ := h
      subst hevs
      rcases List.mem_cons.mp hx with h1 | h1
      · subst h1
        simp
      · subst hr
        have := ih evs2 hrl x h1
        simp [this]

/-- C3 (amended): once the fetch has succeeded — the point at which the
deferred restore is registered — every exit path of the run ends with the
Restorer: the trace is the pre-fetch status queries, the fetch, the
post-fetch phases, and then the restore checkouts; when restoration
succeeds every worktree's recorded branch is checked out; and a failure of
the post-fetch phases is never dropped: it is returned as-is or joined with
the restore failure.  (Exits before or at the fetch do not restore.) -/
theorem run_restores_after_fetch (tb : Str) (env : Env) (s : state) (evs : List Ev)
    (hv : validateGitVersion env = none) (hin : env.insideWorkTree = true)
    (hs : newState tb env = .ok s)
    (hcl : s.errIfUncommittedChanges env = (evs, none))
    (hf : env.fetchOk s.currentDir = true) :
    runM tb env = (evs ++ [Ev.fetchEv s.currentDir] ++ (runAfterFetch s env).1
        ++ (s.restore env).1, joinOpt (runAfterFetch s env).2 (s.restore env).2)
    ∧ ((s.restore env).2 = none →
        ∀ w ∈ s.worktrees, Ev.checkoutEv w.dir w.branch ∈ (runM tb env).1)
    ∧ (∀ e, (runAfterFetch s env).2 = some e →
        (runM tb env).2 = some e ∨
          ∃ r, (s.restore env).2 = some r ∧ (runM tb env).2 = some (.joinE e r)) := by
  have hrun : runM tb env = (evs ++ [Ev.fetchEv s.currentDir] ++ (runAfterFetch s env).1
      ++ (s.restore env).1, joinOpt (runAfterFetch s env).2 (s.restore env).2) := by
    simp only [runM, hv, hin, Bool.not_true, Bool.false_eq_true, if_false, hs]
    rw [hcl]
    simp only [fetchFn, hf, if_true]
  refine ⟨hrun, ?_, ?_⟩
  · intro hnone w hw
    rw [hrun]
    rcases hrl : s.restore env with ⟨evsR, r⟩
    rw [hrl] at hnone
    simp only at hnone
    subst hnone
    rw [state.restore] at hrl
    have := restoreLoop_none_mem env s.worktrees evsR hrl w hw
    simp only [hrl, List.mem_append]
    exact Or.inr this
  · intro e he
    rw [hrun, he]
    cases hrl : (s.restore env).2 with
    | none => exact Or.inl rfl
    | some r => exact Or.inr ⟨r, rfl, rfl⟩

/-- C3 witness: in `envOK` the restore succeeds and the worktree `/r` is
checked back out onto `main` at the end of the run. -/
theorem run_restores_after_fetch_witness :
    Ev.checkoutEv (lit "/r") (lit "main") ∈ (runM [] envOK).1 :=
  (run_restores_after_fetch [] envOK stOK [Ev.statusEv (lit "/r")]
    rfl rfl rfl rfl rfl).2.1 rfl ⟨lit "/r", lit "main"⟩ (by decide)

theorem rebaseBranchesLoop_first_failure (s : state) (env : Env) (l2 : List Str) (b out : Str)
    (hco : env.checkoutRes s.currentDir b = none)
    (hrb : env.rebaseRes s.currentDir b s.targetBranch = some out) :
    ∀ l1 : List Str,
      (∀ x ∈ l1, env.checkoutRes s.currentDir x = none ∧
        env.rebaseRes s.currentDir x s.targetBranch = none) →
      rebaseBranchesLoop s env (l1 ++ b :: l2) =
        (l1.flatMap (fun x => [Ev.checkoutEv s.currentDir x,
            Ev.rebaseEv s.currentDir s.targetBranch])
           ++ [Ev.checkoutEv s.currentDir b, Ev.rebaseEv s.currentDir s.targetBranch,
               Ev.abortEv s.currentDir],
         some (.wrap (lit "rebasing " ++ b ++ lit " onto " ++ s.targetBranch ++ lit " (dir: "
             ++ s.currentDir ++ lit ")")
           (match env.abortRes s.currentDir b with
            | none => .wrap (lit "successfully aborted") (rebaseFailErr s.targetBranch out)
            | some aOut => .pair (rebaseFailErr s.targetBranch out) (abortFailErr aOut)))) := by
  intro l1
  induction l1 with
  | nil =>
    intro _
    simp only [List.nil_append, rebaseBranchesLoop, checkoutFn, hco, rebaseFn, hrb]
    cases env.abortRes s.currentDir b with
    | none => simp
    | some aOut => simp
  | cons x l1 ih =>
    intro hall
    obtain ⟨hcx, hrx⟩ := hall x (List.mem_cons_self _ _)
    simp only [List.cons_append, rebaseBranchesLoop, checkoutFn, hcx, rebaseFn, hrx,
      List.append_eq]
    rw [ih (fun y hy => hall y (List.mem_cons_of_mem _ hy))]
    simp [List.flatMap]

theorem count_abort_pairs (d t : Str) (l : List Str) :
    (l.flatMap (fun x => [Ev.checkoutEv d x, Ev.rebaseEv d t])).count (Ev.abortEv d) = 0 := by
  induction l with
  | nil => rfl
  | cons x l ih =>
    simp only [List.flatMap_cons, List.count_append, ih]
    simp [List.count_cons]

/-- C4: for a rebase plan whose branches up to `b` succeed and whose rebase
of `b` fails, the executor checks out and rebases each earlier branch, then
checks out `b`, issues the failing rebase and exactly one abort, returns
the rebase failure combined with the abort outcome (success or the abort's
own failure) as one wrapped diagnostic, and never touches the branches
after `b`. -/
theorem rebaseBranches_abort_and_stop (s : state) (env : Env) (l1 l2 : List Str) (b out : Str)
    (hplan : s.branchesToRebase = l1 ++ b :: l2)
    (hall : ∀ x ∈ l1, env.checkoutRes s.currentDir x = none ∧
      env.rebaseRes s.currentDir x s.targetBranch = none)
    (hco : env.checkoutRes s.currentDir b = none)
    (hrb : env.rebaseRes s.currentDir b s.targetBranch = some out) :
    s.rebaseBranches env =
      (l1.flatMap (fun x => [Ev.checkoutEv s.currentDir x,
          Ev.rebaseEv s.currentDir s.targetBranch])
         ++ [Ev.checkoutEv s.currentDir b, Ev.rebaseEv s.currentDir s.targetBranch,
             Ev.abortEv s.currentDir],
       some (.wrap (lit "rebasing " ++ b ++ lit " onto " ++ s.targetBranch ++ lit " (dir: "
           ++ s.currentDir ++ lit ")")
         (match env.abortRes s.currentDir b with
          | none => .wrap (lit "successfully aborted") (rebaseFailErr s.targetBranch out)
          | some aOut => .pair (rebaseFailErr s.targetBranch out) (abortFailErr aOut))))
    ∧ (s.rebaseBranches env).1.count (Ev.abortEv s.currentDir) = 1
    ∧ (∀ x ∈ l2, x ∉ l1 → x ≠ b →
        Ev.checkoutEv s.currentDir x ∉ (s.rebaseBranches env).1) := by
  have h0 := rebaseBranchesLoop_first_failure s env l2 b out hco hrb l1 hall
  rw [state.rebaseBranches, hplan, h0]
  refine ⟨rfl, ?_, ?_⟩
  · simp only [List.count_append, count_abort_pairs]
    simp [List.count_cons]
  · intro x hx hnl1 hnb
    simp only [List.mem_append, List.mem_flatMap, List.mem_cons, List.not_mem_nil]
    rintro (⟨y, hy, hmem⟩ | hmem)
    · rcases hmem with h1 | h1
      · cases h1
        exact hnl1 hy
      · rcases h1 with h1 | h1
        · exact Ev.noConfusion h1
        · exact h1.elim
    · rcases hmem with h1 | hmem
      · cases h1
        exact hnb rfl
      · rcases hmem with h1 | hmem
        · exact Ev.noConfusion h1
        · rcases hmem with h1 | hmem
          · exact Ev.noConfusion h1
          · exact hmem

/-- C4 witness: with plan `[a, b, c]` in `envRebase` (the rebase with `b`
checked out conflicts), exactly one abort is issued. -/
theorem rebaseBranches_abort_and_stop_witness :
    (stRebase.rebaseBranches envRebase).1.count (Ev.abortEv (lit "/r")) = 1 :=
  (rebaseBranches_abort_and_stop stRebase envRebase [lit "a"] [lit "c"] (lit "b")
    (lit "CONFLICT\n") rfl (by decide) rfl rfl).2.1

/-- C8 counterexample: the claim that positional arguments are rejected
fails: the invocation `git-rebase-all foo` in `envOK` exits 0, produces a
nonempty git trace (the orchestration ran), and behaves exactly as the
invocation with no arguments. -/
theorem positional_args_not_rejected :
    (mainM [lit "foo"] envOK).1 = 0 ∧ (mainM [lit "foo"] envOK).2 ≠ []
    ∧ mainM [lit "foo"] envOK = mainM [] envOK := by
  refine ⟨rfl, ?_, rfl⟩
  decide

/-- C8 (amended): positional arguments are accepted and ignored: an
invocation whose first argument is not a flag token parses every argument
as positional and behaves exactly as an invocation with no arguments. -/
theorem positional_args_ignored (env : Env) (a : Str) (args : List Str)
    (h : a.length < 2 ∨ beginsWith a (lit "-") = false) :
    mainM (a :: args) env = mainM [] env := by
  have hc : (decide (a.length < 2) || !beginsWith a (lit "-")) = true := by
    rcases h with h | h
    · simp [h]
    · simp [h]
  have hstop : parseFlagsLoop (a :: args) false [] = .ok false [] (a :: args) := by
    rw [parseFlagsLoop.eq_def]
    simp only [hc, if_true]
  simp only [mainM]
  rw [hstop]
  rfl

/-- C8 witness: `git-rebase-all zzz` behaves as `git-rebase-all`. -/
theorem positional_args_ignored_witness :
    mainM [lit "zzz"] envOK = mainM [] envOK :=
  positional_args_ignored envOK (lit "zzz") [] (Or.inr (by decide))

end GitRebaseAll
